import Mathlib

/-!
Verification of the Bitbucket branch-harvester crawl engine
(`harvest_bitbucket_branches.py`): retry layer, paginator, rate limiter,
tip-commit resolution, row construction and per-repository processing,
shallowly embedded in Lean.  HTTP traffic is modelled as an environment
function giving the outcome of each physical attempt; real time is
modelled by rational instants; file handles are modelled as event traces.
-/

namespace Harvest

/-! ## Retry layer (`backoff_get`)

One physical GET attempt has three possible fates, mirroring the Python
`try` block: the request itself raises (`aiohttp.ClientError` or
`asyncio.TimeoutError`, both caught — `netErr`), or a response with some
status arrives.  When the status is neither retriable nor `>= 400`, the
body is parsed by `resp.json()`, which can succeed, raise an
`aiohttp.ClientError` (e.g. `ContentTypeError`, caught by the `except`
clause), or raise a `json.JSONDecodeError` — which is a `ValueError`,
not an `aiohttp.ClientError`, and therefore escapes the `except` clause
uncaught. -/

inductive BodyResult (β : Type) : Type
  | ok (b : β)
  | clientErr
  | decodeErr
deriving DecidableEq

inductive AttemptOutcome (β : Type) : Type
  | netErr
  | resp (status : Nat) (body : BodyResult β)
deriving DecidableEq

/-- `RETRIABLE = {429, 500, 502, 503, 504}` from the source. -/
def RETRIABLE : List Nat := [429, 500, 502, 503, 504]

/-- `min(2 ** attempt, 30)` — the backoff sleep taken after attempt `a`. -/
def backoffSleep (a : Nat) : Nat := min (2 ^ a) 30

/-- Result of `backoff_get`: the value returned to the caller (`Except.error`
meaning an exception escaped), the number of physical attempts made, and the
list of backoff sleeps performed, in order. -/
structure BackoffResult (β : Type) : Type where
  result : Except Unit (Option β)
  attempts : Nat
  sleeps : List Nat

/-- The `for attempt in range(retries)` loop of `backoff_get`, recursing on the
remaining iteration count `fuel` with current attempt index `a`.  Exhausting
the loop returns `None` (modelled `Except.ok none`). -/
def backoffGo (env : Nat → AttemptOutcome β) : Nat → Nat → BackoffResult β
  | _, 0 => ⟨Except.ok none, 0, []⟩
  | a, fuel + 1 =>
    match env a with
    | AttemptOutcome.netErr =>
        let r := backoffGo env (a + 1) fuel
        ⟨r.result, r.attempts + 1, backoffSleep a :: r.sleeps⟩
    | AttemptOutcome.resp s b =>
        if RETRIABLE.contains s then
          let r := backoffGo env (a + 1) fuel
          ⟨r.result, r.attempts + 1, backoffSleep a :: r.sleeps⟩
        else if 400 ≤ s then ⟨Except.ok none, 1, []⟩
        else
          match b with
          | BodyResult.ok j => ⟨Except.ok (some j), 1, []⟩
          | BodyResult.clientErr =>
              let r := backoffGo env (a + 1) fuel
              ⟨r.result, r.attempts + 1, backoffSleep a :: r.sleeps⟩
          | BodyResult.decodeErr => ⟨Except.error (), 1, []⟩

/-- `backoff_get(session, url, params, timeout_s, retries, limiter)`: runs the
attempt loop from attempt `0` against the environment `env`, which gives the
outcome of each physical attempt. -/
def backoffGet (env : Nat → AttemptOutcome β) (retries : Nat) : BackoffResult β :=
  backoffGo env 0 retries

/-- An attempt outcome is retriable in the sense of the spec when it is a
network-level error or timeout, or a response whose status lies in
`RETRIABLE`. -/
def isRetriableOut : AttemptOutcome β → Bool
  | AttemptOutcome.netErr => true
  | AttemptOutcome.resp s _ => RETRIABLE.contains s

/-! ## Paginator (`paged_get`)

A page body is a JSON dict with the three fields the paginator reads;
`hasOtherKeys` records whether the dict carries any further keys, which
matters only for Python truthiness (`if not data`): a dict is falsy
exactly when it is empty. The paginator consumes, per request, the value
the retry layer returned (`none` = absence signal).  The server is
modelled as a function from the request index (0-based: the `k`-th
request overall) to that value.  The Python `while True` loop is given
explicit fuel; the source itself loops forever on a server that never
reports a last page, which the spec documents as an unmitigated risk. -/

structure PageBody (α : Type) : Type where
  values : Option (List α)
  isLastPage : Option Bool
  nextPageStart : Option Nat
  hasOtherKeys : Bool
deriving DecidableEq

/-- Python truthiness of the parsed dict: falsy iff it is the empty dict. -/
def PageBody.falsy : PageBody α → Bool
  | ⟨none, none, none, false⟩ => true
  | _ => false

/-- `data.get("values", [])` of a retry-layer result. -/
def respValues : Option (PageBody α) → List α
  | some b => b.values.getD []
  | none => []

/-- Whether a retry-layer result passes the `if not data` guard: a present,
truthy (non-empty-dict) body. -/
def respOk : Option (PageBody α) → Bool
  | some b => !b.falsy
  | none => false

/-- `data.get("isLastPage", False)` of a retry-layer result. -/
def respLast : Option (PageBody α) → Bool
  | some b => b.isLastPage.getD false
  | none => false

/-- What `paged_get` produced: the items yielded, and the `start` offsets it
sent, one per request made. -/
structure PagedOut (α : Type) : Type where
  items : List α
  starts : List Nat
deriving DecidableEq

/-- The `while True` loop of `paged_get`: request index `i`, current `start`
offset.  Each iteration queries the server; `None` or a falsy body ends the
sequence, `isLastPage` (default `False`) ends it after yielding the page's
values, and otherwise the offset advances to `nextPageStart` when present,
else to `start + len(values)`. -/
def pagedGo (server : Nat → Option (PageBody α)) : Nat → Nat → Nat → PagedOut α
  | 0, _, _ => ⟨[], []⟩
  | fuel + 1, i, start =>
    match server i with
    | none => ⟨[], [start]⟩
    | some b =>
      if b.falsy then ⟨[], [start]⟩
      else
        let values := b.values.getD []
        if b.isLastPage.getD false then ⟨values, [start]⟩
        else
          let r := pagedGo server fuel (i + 1) (b.nextPageStart.getD (start + values.length))
          ⟨values ++ r.items, start :: r.starts⟩

/-- `paged_get` starts at request `0` with `start = 0`. -/
def pagedGet (server : Nat → Option (PageBody α)) (fuel : Nat) : PagedOut α :=
  pagedGo server fuel 0 0

/-- Modelled from the spec: the offset-advance rule for one step — "prefer the
server-supplied next page start hint; fall back to `start + page_size` if
absent" (the source falls back to `start + len(values)`). -/
def nextStartOf (resp : Option (PageBody α)) (start : Nat) : Nat :=
  match resp with
  | some b => b.nextPageStart.getD (start + (b.values.getD []).length)
  | none => start

/-- Modelled from the spec: the sequence of `start` offsets a conforming
paginator sends over `k` requests, for comparing against `pagedGo`'s
recorded `starts`. -/
def specStarts (server : Nat → Option (PageBody α)) : Nat → Nat → Nat → List Nat
  | 0, _, _ => []
  | k + 1, i, s => s :: specStarts server k (i + 1) (nextStartOf (server i) s)

/-! ## Rate limiter (`RateLimiter`)

Real time is modelled by rational instants of an idealised monotonic
clock (`time.perf_counter`): a sleep of duration `d` wakes exactly `d`
later, and the `perf_counter` reads around a grant equal the grant
instant.  `wait()` has a suspension point (`await asyncio.sleep`)
between reading `self._last` and writing it back, so interleaved callers
are modelled by a small-step semantics over explicit scheduler actions:
`call i t` — coroutine `i` enters `wait()` at instant `t`;
`wake i` — the scheduler resumes sleeping coroutine `i` at its deadline.
A step is valid only if time never runs backwards and no action jumps
past an earlier pending deadline (the event loop wakes the earliest
sleeper first; ties resolve in either order). -/

/-- `1.0 / self.rps` with the constructor's clamp `self.rps = max(0.1, rps)`. -/
def minInterval (rps : ℚ) : ℚ := 1 / max (1 / 10) rps

structure LimiterState : Type where
  last : ℚ
  pending : List (Nat × ℚ)
  grants : List ℚ
  clock : ℚ
deriving DecidableEq

inductive LimAct : Type
  | call (i : Nat) (t : ℚ)
  | wake (i : Nat)
deriving DecidableEq

/-- One scheduler step.  `call i t`: the coroutine reads `now = t` and the
current `_last`; if `elapsed < min_interval` it goes to sleep until
`t + (min_interval - elapsed)`, otherwise it is granted immediately and
writes `_last`.  `wake i`: the sleeper resumes at its deadline, is granted,
and writes `_last`.  Returns `none` on an invalid (unschedulable) action. -/
def limStep (rps : ℚ) (s : LimiterState) : LimAct → Option LimiterState
  | LimAct.call i t =>
    if s.clock ≤ t ∧ (∀ p ∈ s.pending, t ≤ p.2) ∧ (∀ p ∈ s.pending, p.1 ≠ i) then
      let elapsed := t - s.last
      if elapsed < minInterval rps then
        some { s with pending := (i, t + (minInterval rps - elapsed)) :: s.pending, clock := t }
      else
        some { s with last := t, grants := s.grants ++ [t], clock := t }
    else none
  | LimAct.wake i =>
    match s.pending.find? (fun p => p.1 == i) with
    | some p =>
      if s.clock ≤ p.2 ∧ ∀ q ∈ s.pending, p.2 ≤ q.2 then
        some { last := p.2, pending := s.pending.filter (fun q => q.1 != i),
               grants := s.grants ++ [p.2], clock := p.2 }
      else none
    | none => none

/-- Run a list of scheduler actions from a state; `none` if any is invalid. -/
def limRun (rps : ℚ) : LimiterState → List LimAct → Option LimiterState
  | s, [] => some s
  | s, a :: rest =>
    match limStep rps s a with
    | some s2 => limRun rps s2 rest
    | none => none

/-- Run from the initial state of the constructor: `self._last = 0.0`, clock
origin 0, nothing pending, nothing granted. -/
def limRun0 (rps : ℚ) (acts : List LimAct) : Option LimiterState :=
  limRun rps ⟨0, [], [], 0⟩ acts

/-- One non-overlapping `wait()` call in isolation: entered at instant `t`
with stored `_last = last`, it returns (is granted) at the returned instant,
which is also the new `_last`. -/
def waitGrant (rps last t : ℚ) : ℚ :=
  if t - last < minInterval rps then t + (minInterval rps - (t - last)) else t

/-- Grant instants of a sequence of non-overlapping `wait()` calls (each call
entered only after the previous one returned), entered at the given
instants. -/
def seqGrants (rps : ℚ) : ℚ → List ℚ → List ℚ
  | _, [] => []
  | last, t :: ts => waitGrant rps last t :: seqGrants rps (waitGrant rps last t) ts

/-! ## Resource fetchers and row construction -/

/-- Python `x or y` on an optional string `x` with default `y`: `None` and
`""` are falsy. -/
def strOr (a : Option String) (b : String) : String :=
  match a with
  | some s => if s = "" then b else s
  | none => b

/-- A branch as normalised by `get_branches`. -/
structure Branch : Type where
  name : String
  latestCommit : Option String
  isDefault : Bool
deriving DecidableEq

/-- The raw branch page item consumed by `get_branches`. -/
structure BranchJson : Type where
  displayId : Option String
  id : Option String
  latestCommit : Option String
  isDefault : Option Bool
deriving DecidableEq

/-- The per-item normalisation inside `get_branches`:
`br.get("displayId") or (br.get("id", "").split("/")[-1])`,
`br.get("latestCommit")`, `br.get("isDefault", False)`. -/
def normBranch (bj : BranchJson) : Branch :=
  { name := strOr bj.displayId (((bj.id.getD "").splitOn "/").getLastD ""),
    latestCommit := bj.latestCommit,
    isDefault := bj.isDefault.getD false }

/-- `get_branches`: the paginated branch listing, item-wise normalised. -/
def getBranches (server : Nat → Option (PageBody BranchJson)) (fuel : Nat) : List Branch :=
  (pagedGet server fuel).items.map normBranch

/-- The `author` sub-dict of a commit body; every field optional. -/
structure Author : Type where
  name : Option String
  displayName : Option String
  emailAddress : Option String
deriving DecidableEq

/-- A commit JSON body: `id`, `author` (the key may be absent — outer `none`
— or present with a null value — `some none`), `authorTimestamp`, plus a flag
for any further keys (which matter only for Python truthiness). -/
structure CommitBody : Type where
  id : Option String
  author : Option (Option Author)
  authorTimestamp : Option Int
  hasOtherKeys : Bool
deriving DecidableEq

/-- Python truthiness of a commit dict: falsy iff empty. -/
def CommitBody.falsy : CommitBody → Bool
  | ⟨none, none, none, false⟩ => true
  | _ => false

/-- `c.get("author", {}) or {}`: the author dict, with an absent key, a null
value, or a falsy value all collapsing to the empty dict (all fields
absent). -/
def effAuthor : Option (Option Author) → Author
  | some (some a) => a
  | _ => ⟨none, none, none⟩

/-- `iso_from_ms`: empty string on `None`, else the UTC ISO-8601 rendering of
the millisecond timestamp.  The datetime formatting itself is wall-clock
library code and is abstracted as the parameter `fmt`. -/
def iso_from_ms (fmt : Int → String) : Option Int → String
  | none => ""
  | some ms => fmt ms

/-- The body of the commit-log query (`/commits?until=branch&limit=1`). -/
structure LogBody : Type where
  values : Option (List CommitBody)
  hasOtherKeys : Bool
deriving DecidableEq

/-- Python truthiness of the log dict: falsy iff empty. -/
def LogBody.falsy : LogBody → Bool
  | ⟨none, false⟩ => true
  | _ => false

/-- The guard `if data and data.get("values"):` — a present truthy body whose
`values` is a non-empty list. -/
def logHasValues : Option LogBody → Bool
  | some d => !d.falsy && !(d.values.getD []).isEmpty
  | none => false

/-- Tip commit metadata, every field a string, absent data as `""`. -/
structure CommitInfo : Type where
  hash : String
  author_name : String
  author_email : String
  date_iso : String
deriving DecidableEq

/-- Whether the fallback pair can succeed: a truthy `latest_hash` (the
`if latest_hash:` guard) together with a truthy commit-by-hash body (the
`if c:` guard). -/
def hashTruthy (latestHash : Option String) (hashResp : Option CommitBody) : Bool :=
  (match latestHash with
   | some s => s != ""
   | none => false) &&
  (match hashResp with
   | some c => !c.falsy
   | none => false)

/-- The fallback half of `get_tip_commit`: if a truthy `latest_hash` was
supplied, consult the direct commit-by-hash response; a truthy body yields
hash/author fields with `date_iso = ""`, anything else yields the all-empty
`CommitInfo`. -/
def tipFallback (latestHash : Option String) (hashResp : Option CommitBody) : CommitInfo :=
  match latestHash with
  | some s =>
    if s = "" then ⟨"", "", "", ""⟩
    else
      match hashResp with
      | some c =>
        if c.falsy then ⟨"", "", "", ""⟩
        else
          ⟨c.id.getD "", (effAuthor c.author).name.getD "",
           (effAuthor c.author).emailAddress.getD "", ""⟩
      | none => ⟨"", "", "", ""⟩
  | none => ⟨"", "", "", ""⟩

/-- `get_tip_commit`: step (a) queries the commit log; when it has values,
the first one supplies hash, author (name, else displayName, else `""`),
email and the ISO timestamp.  Otherwise step (b), `tipFallback`, runs.
`logResp` is the retry-layer result of the log query and `hashResp` that of
the commit-by-hash query (consulted only on the fallback path). -/
def getTipCommit (fmt : Int → String) (logResp : Option LogBody)
    (latestHash : Option String) (hashResp : Option CommitBody) : CommitInfo :=
  match logResp with
  | some d =>
    if d.falsy then tipFallback latestHash hashResp
    else
      match d.values.getD [] with
      | c :: _ =>
        let author := effAuthor c.author
        ⟨c.id.getD "", strOr author.name (strOr author.displayName ""),
         strOr author.emailAddress "", iso_from_ms fmt c.authorTimestamp⟩
      | [] => tipFallback latestHash hashResp
  | none => tipFallback latestHash hashResp

/-! ## Output rows and the per-repository trace -/

/-- `CSV_HEADER` from the source: the fixed tabular column order. -/
def CSV_HEADER : List String :=
  ["project_key", "repo", "repo_slug", "branch", "last_commit_hash",
   "last_commit_author", "last_commit_email", "last_commit_date_utc",
   "days_since_last_commit", "is_default_branch"]

/-- `make_row`: the harvest row for one branch, as an association list in the
dict's insertion order.  `days_since_iso` reads the wall clock, so it is
abstracted as the parameter `daysFn`. -/
def makeRow (pk rname slug : String) (br : Branch) (tip : CommitInfo)
    (daysFn : String → String) : List (String × String) :=
  [("project_key", pk), ("repo", rname), ("repo_slug", slug), ("branch", br.name),
   ("last_commit_hash", tip.hash), ("last_commit_author", tip.author_name),
   ("last_commit_email", tip.author_email), ("last_commit_date_utc", tip.date_iso),
   ("days_since_last_commit", daysFn tip.date_iso),
   ("is_default_branch", if br.isDefault then "yes" else "no")]

/-- `make_empty_repo_record`: the stub emitted for a repository that
enumerated zero branches (or whose branch listing silently failed). -/
def makeEmptyRepoRecord (pk rname slug : String) : List (String × String) :=
  [("project_key", pk), ("repo", rname), ("repo_slug", slug), ("branch", ""),
   ("last_commit_hash", ""), ("last_commit_author", ""), ("last_commit_email", ""),
   ("last_commit_date_utc", ""), ("days_since_last_commit", ""),
   ("is_default_branch", "no"), ("has_branches", "no")]

/-- `rec.get(k, d)` on a record association list. -/
def recGet (record : List (String × String)) (k d : String) : String :=
  match record.find? (fun p => p.1 == k) with
  | some p => p.2
  | none => d

/-- The CSV projection `[rec.get(k, "") for k in CSV_HEADER]`. -/
def csvRowOf (record : List (String × String)) : List String :=
  CSV_HEADER.map (fun k => recGet record k "")

/-- One observable I/O action of `process_repo` on its three sinks. -/
inductive Event : Type
  | writeNd (record : List (String × String))
  | flushNd
  | writeCsv (row : List String)
  | writeResume (key : String)
  | flushResume
deriving DecidableEq

/-- The row writes performed by the gathered `one(br)` tasks: for each branch
its NDJSON line and, when a CSV writer is configured, its CSV row.  The
branch order stands for one scheduler interleaving; every schedule performs
exactly these writes, in some permutation, before the gather returns. -/
def rowEvents (pk rname slug : String) (branches : List Branch)
    (tip : Branch → CommitInfo) (hasCsv : Bool) (daysFn : String → String) : List Event :=
  branches.flatMap (fun br =>
    let row := makeRow pk rname slug br (tip br) daysFn
    Event.writeNd row :: (if hasCsv then [Event.writeCsv (csvRowOf row)] else []))

/-- The I/O trace of `process_repo` for one repository, with the per-branch
tip resolution abstracted as `tip`.  Empty branch list: stub record, NDJSON
flush, CSV row, resume append + flush.  Otherwise: all row writes, NDJSON
flush, resume append + flush. -/
def processRepoTrace (pk rname slug : String) (branches : List Branch)
    (tip : Branch → CommitInfo) (hasCsv hasResume : Bool)
    (daysFn : String → String) : List Event :=
  if branches.isEmpty then
    let stub := makeEmptyRepoRecord pk rname slug
    [Event.writeNd stub, Event.flushNd]
      ++ (if hasCsv then [Event.writeCsv (csvRowOf stub)] else [])
      ++ (if hasResume then
            [Event.writeResume (pk ++ "/" ++ slug), Event.flushResume] else [])
  else
    rowEvents pk rname slug branches tip hasCsv daysFn
      ++ [Event.flushNd]
      ++ (if hasResume then
            [Event.writeResume (pk ++ "/" ++ slug), Event.flushResume] else [])

/-- A concrete two-page server used to instantiate the pagination theorems:
page 0 holds items `[1, 2]` with a `nextPageStart` hint of `5`, page 1 holds
`[3]` and is the last page. -/
def wServer : Nat → Option (PageBody Nat) := fun j =>
  if j = 0 then some ⟨some [1, 2], some false, some 5, false⟩
  else if j = 1 then some ⟨some [3], some true, none, false⟩
  else none

/-! ## Theorems: retry layer -/

theorem backoffGo_attempts_le (env : Nat → AttemptOutcome β) :
    ∀ fuel a, (backoffGo env a fuel).attempts ≤ fuel := by
  intro fuel
  induction fuel with
  | zero => intro a; simp [backoffGo]
  | succ fuel ih =>
    intro a
    have hrec := ih (a + 1)
    simp only [backoffGo]
    cases env a with
    | netErr => simp only [BackoffResult.mk.injEq]; omega
    | resp s b =>
      by_cases hs : s ∈ RETRIABLE
      · simp [hs]; omega
      · by_cases h4 : 400 ≤ s
        · simp [hs, h4]
        · cases b with
          | ok j => simp [hs, h4]
          | clientErr => simp [hs, h4]; omega
          | decodeErr => simp [hs, h4]

theorem backoffGo_sleeps_schedule (env : Nat → AttemptOutcome β) :
    ∀ fuel a, ∃ n, (backoffGo env a fuel).sleeps = (List.range' a n).map backoffSleep := by
  intro fuel
  induction fuel with
  | zero => intro a; exact ⟨0, rfl⟩
  | succ fuel ih =>
    intro a
    simp only [backoffGo]
    cases env a with
    | netErr =>
      obtain ⟨n, hn⟩ := ih (a + 1)
      exact ⟨n + 1, by simp [List.range'_succ, hn]⟩
    | resp s b =>
      by_cases hs : s ∈ RETRIABLE
      · obtain ⟨n, hn⟩ := ih (a + 1)
        exact ⟨n + 1, by simp [hs, List.range'_succ, hn]⟩
      · by_cases h4 : 400 ≤ s
        · exact ⟨0, by simp [hs, h4]⟩
        · cases b with
          | ok j => exact ⟨0, by simp [hs, h4]⟩
          | clientErr =>
            obtain ⟨n, hn⟩ := ih (a + 1)
            exact ⟨n + 1, by simp [hs, h4, List.range'_succ, hn]⟩
          | decodeErr => exact ⟨0, by simp [hs, h4]⟩

theorem backoffGo_all_retriable (env : Nat → AttemptOutcome β) :
    ∀ fuel a, (∀ n, a ≤ n → n < a + fuel → isRetriableOut (env n) = true) →
      backoffGo env a fuel =
        ⟨Except.ok none, fuel, (List.range' a fuel).map backoffSleep⟩ := by
  intro fuel
  induction fuel with
  | zero => intro a _; rfl
  | succ fuel ih =>
    intro a h
    have ha : isRetriableOut (env a) = true := h a (Nat.le_refl a) (by omega)
    have hrec := ih (a + 1) (fun n h1 h2 => h n (by omega) (by omega))
    simp only [backoffGo]
    cases henv : env a with
    | netErr => simp [hrec, List.range'_succ]
    | resp s b =>
      have hs : s ∈ RETRIABLE := by
        have hb := ha
        rw [henv] at hb
        simp only [isRetriableOut] at hb
        exact List.mem_of_elem_eq_true hb
      simp [hs, hrec, List.range'_succ]

/-- C1: on an environment whose every attempt outcome is retriable (status in
`{429, 500, 502, 503, 504}`, or a network-level error or timeout),
`backoff_get` makes at most — and there exactly — 6 physical attempts,
sleeps `min(2^n, 30)` seconds after attempt `n` (so the sleep schedule is
`[1, 2, 4, 8, 16, 30]`), and finally returns the absence signal `None`
rather than a value. -/
theorem backoffGet_retry_schedule (env : Nat → AttemptOutcome β) :
    (backoffGet env 6).attempts ≤ 6 ∧
    (∃ n, (backoffGet env 6).sleeps = (List.range n).map backoffSleep) ∧
    ((∀ n, n < 6 → isRetriableOut (env n) = true) →
      (backoffGet env 6).result = Except.ok none ∧
      (backoffGet env 6).attempts = 6 ∧
      (backoffGet env 6).sleeps = [1, 2, 4, 8, 16, 30]) := by
  refine ⟨backoffGo_attempts_le env 6 0, ?_, ?_⟩
  · obtain ⟨n, hn⟩ := backoffGo_sleeps_schedule env 6 0
    exact ⟨n, by rw [List.range_eq_range']; exact hn⟩
  · intro h
    have heq := backoffGo_all_retriable env 6 0 (fun n _ h2 => h n (by omega))
    rw [backoffGet, heq]
    refine ⟨rfl, rfl, ?_⟩
    show List.map backoffSleep (List.range' 0 6) = [1, 2, 4, 8, 16, 30]
    decide

theorem backoffGet_retry_schedule_witness :
    (backoffGet (fun _ => (AttemptOutcome.netErr : AttemptOutcome Nat)) 6).result =
        Except.ok none ∧
    (backoffGet (fun _ => (AttemptOutcome.netErr : AttemptOutcome Nat)) 6).attempts = 6 ∧
    (backoffGet (fun _ => (AttemptOutcome.netErr : AttemptOutcome Nat)) 6).sleeps =
        [1, 2, 4, 8, 16, 30] :=
  (backoffGet_retry_schedule (fun _ => AttemptOutcome.netErr)).2.2 (fun _ _ => rfl)

/-- C5 counterexample: a first attempt that yields a success status (200)
whose body fails JSON decoding makes `backoff_get` raise to its caller
(`json.JSONDecodeError` is not an `aiohttp.ClientError`, so the `except`
clause does not catch it), refuting "never raises ... including malformed
bodies". -/
theorem backoffGet_decode_error_raises :
    (backoffGet (fun _ => AttemptOutcome.resp 200 (BodyResult.decodeErr : BodyResult Nat))
        6).result = Except.error () := rfl

theorem backoffGo_no_decode_no_raise (env : Nat → AttemptOutcome β)
    (h : ∀ n s, RETRIABLE.contains s = false → s < 400 →
        env n ≠ AttemptOutcome.resp s BodyResult.decodeErr) :
    ∀ fuel a, ∃ o, (backoffGo env a fuel).result = Except.ok o := by
  intro fuel
  induction fuel with
  | zero => intro a; exact ⟨none, rfl⟩
  | succ fuel ih =>
    intro a
    simp only [backoffGo]
    cases henv : env a with
    | netErr => exact ih (a + 1)
    | resp s b =>
      by_cases hs : s ∈ RETRIABLE
      · simpa [hs] using ih (a + 1)
      · by_cases h4 : 400 ≤ s
        · exact ⟨none, by simp [hs, h4]⟩
        · cases b with
          | ok j => exact ⟨some j, by simp [hs, h4]⟩
          | clientErr => simpa [hs, h4] using ih (a + 1)
          | decodeErr =>
            exact absurd henv (h a s (by simpa using hs) (by omega))

/-- C5 amended: `backoff_get` never raises on network-level errors, timeouts,
or any HTTP status classification — every such input yields a normal return
(parsed body or the absence signal `None`); the sole exception escape is a
response whose status is neither retriable nor `>= 400` and whose body fails
JSON decoding. -/
theorem backoffGet_no_raise_without_decode_error (env : Nat → AttemptOutcome β)
    (retries : Nat)
    (h : ∀ n s, RETRIABLE.contains s = false → s < 400 →
        env n ≠ AttemptOutcome.resp s BodyResult.decodeErr) :
    ∃ o, (backoffGet env retries).result = Except.ok o :=
  backoffGo_no_decode_no_raise env h retries 0

theorem backoffGet_no_raise_without_decode_error_witness :
    ∃ o, (backoffGet (fun _ => (AttemptOutcome.netErr : AttemptOutcome Nat)) 6).result =
        Except.ok o :=
  backoffGet_no_raise_without_decode_error (fun _ => AttemptOutcome.netErr) 6
    (fun _ _ _ _ hh => nomatch hh)

/-! ## Theorems: paginator -/

theorem range_flatMap_succ (f : Nat → List γ) (m : Nat) :
    (List.range (m + 1)).flatMap f = f 0 ++ (List.range m).flatMap (fun j => f (j + 1)) := by
  rw [List.range_succ_eq_map, List.flatMap_cons, List.flatMap_map]

theorem pagedGo_last_page (server : Nat → Option (PageBody α)) :
    ∀ k, 1 ≤ k → ∀ fuel i s, k ≤ fuel →
      (∀ j, j < k → respOk (server (i + j)) = true) →
      (∀ j, j + 1 < k → respLast (server (i + j)) = false) →
      respLast (server (i + (k - 1))) = true →
      pagedGo server fuel i s =
        ⟨(List.range k).flatMap (fun j => respValues (server (i + j))),
         specStarts server k i s⟩ := by
  intro k
  induction k with
  | zero => omega
  | succ m ih =>
    intro _ fuel i s hfuel hOk hNotLast hLast
    obtain ⟨fuel, rfl⟩ : ∃ f, fuel = f + 1 := ⟨fuel - 1, by omega⟩
    have h0 : respOk (server (i + 0)) = true := hOk 0 (by omega)
    rw [Nat.add_zero] at h0
    cases hsrv : server i with
    | none => rw [hsrv] at h0; simp [respOk] at h0
    | some b =>
      rw [hsrv] at h0
      have hbf : b.falsy = false := by simpa [respOk] using h0
      cases m with
      | zero =>
        have hl : b.isLastPage.getD false = true := by
          have hL := hLast
          rw [Nat.add_zero, hsrv] at hL
          simpa [respLast] using hL
        simp [pagedGo, hsrv, hbf, hl, specStarts, respValues, List.range_succ]
      | succ m' =>
        have hl : b.isLastPage.getD false = false := by
          have hN := hNotLast 0 (by omega)
          rw [Nat.add_zero, hsrv] at hN
          simpa [respLast] using hN
        have hrec := ih (by omega) fuel (i + 1)
          (b.nextPageStart.getD (s + (b.values.getD []).length)) (by omega)
          (fun j hj => by
            have := hOk (j + 1) (by omega)
            rwa [show i + (j + 1) = i + 1 + j by omega] at this)
          (fun j hj => by
            have := hNotLast (j + 1) (by omega)
            rwa [show i + (j + 1) = i + 1 + j by omega] at this)
          (by
            have := hLast
            rwa [show i + (m' + 1 + 1 - 1) = i + 1 + (m' + 1 - 1) by omega] at this)
        simp only [pagedGo, hsrv, hbf, Bool.false_eq_true, if_false, hl, hrec]
        rw [PagedOut.mk.injEq]
        constructor
        · have hfun : (fun j => respValues (server (i + (j + 1)))) =
              (fun j => respValues (server (i + 1 + j))) :=
            funext fun j => by rw [show i + (j + 1) = i + 1 + j by omega]
          simp only [range_flatMap_succ (fun j => respValues (server (i + j))) (m' + 1)]
          rw [hfun]
          simp only [Nat.add_zero, hsrv]
          rfl
        · conv_rhs => rw [specStarts]
          rw [show nextStartOf (server i) s =
                b.nextPageStart.getD (s + (b.values.getD []).length) by
              simp [nextStartOf, hsrv]]

/-- C2: when the response to the `k`-th request reports `isLastPage = true`
(and earlier responses are present, truthy and not last), `paged_get` yields
exactly the concatenation of the `values` lists of pages `1..k` — every item
exactly once given item-disjoint pages, with nothing from later pages —
whether or not any response carries `nextPageStart`, with the sent offsets
following the advance rule (server hint, else `start + len(values)`). -/
theorem pagedGet_last_page_yields_all [DecidableEq α]
    (server : Nat → Option (PageBody α)) (k fuel : Nat)
    (hk : 1 ≤ k) (hfuel : k ≤ fuel)
    (hOk : ∀ j, j < k → respOk (server j) = true)
    (hNotLast : ∀ j, j + 1 < k → respLast (server j) = false)
    (hLast : respLast (server (k - 1)) = true) :
    (pagedGet server fuel).items = (List.range k).flatMap (fun j => respValues (server j)) ∧
    (pagedGet server fuel).starts = specStarts server k 0 0 ∧
    ((∀ j, j < k → (respValues (server j)).Nodup) →
      (∀ j2, j2 < k → ∀ j1, j1 < j2 → ∀ x ∈ respValues (server j1),
        x ∉ respValues (server j2)) →
      (pagedGet server fuel).items.Nodup) := by
  have h := pagedGo_last_page server k hk fuel 0 0 hfuel
    (fun j hj => by simpa using hOk j hj)
    (fun j hj => by simpa using hNotLast j hj)
    (by simpa using hLast)
  rw [pagedGet, h]
  refine ⟨by simp, rfl, ?_⟩
  intro hnd hdisj
  show ((List.range k).flatMap (fun j => respValues (server (0 + j)))).Nodup
  rw [List.nodup_flatMap]
  constructor
  · intro x hx
    simpa using hnd x (List.mem_range.mp hx)
  · refine (List.pairwise_lt_range k).imp_of_mem ?_
    intro a c ha hc hlt
    intro x hxa hxc
    simp only [Nat.zero_add] at hxa hxc
    exact hdisj c (List.mem_range.mp hc) a hlt x hxa hxc

/-- C10: `paged_get` ends its sequence not only on the absence signal or
`isLastPage = true`, but on any falsy successful body (the empty JSON
object): such a success is treated exactly like a failed page fetch — the
sequence terminates silently, yielding no further items and no error, after
the same single request. -/
theorem pagedGo_falsy_ends_sequence (server : Nat → Option (PageBody α))
    (fuel i s : Nat) :
    (∀ b, server i = some b → b.falsy = true →
        pagedGo server (fuel + 1) i s = ⟨[], [s]⟩) ∧
    (server i = none → pagedGo server (fuel + 1) i s = ⟨[], [s]⟩) := by
  constructor
  · intro b hb hf
    simp [pagedGo, hb, hf]
  · intro hn
    simp [pagedGo, hn]

theorem pagedGet_last_page_yields_all_witness :
    (pagedGet wServer 5).items = [1, 2, 3] ∧
    (pagedGet wServer 5).starts = [0, 5] ∧
    (pagedGet wServer 5).items.Nodup := by
  have h := pagedGet_last_page_yields_all wServer 2 5 (by decide) (by decide) (by decide)
    (by intro j hj; have h0 : j = 0 := (by omega); subst h0; decide) (by decide)
  exact ⟨h.1.trans (by decide), h.2.1.trans (by decide), h.2.2 (by decide) (by decide)⟩

theorem pagedGo_falsy_ends_sequence_witness :
    pagedGo (fun _ => some (⟨none, none, none, false⟩ : PageBody Nat)) 4 0 0 =
      ⟨[], [0]⟩ :=
  (pagedGo_falsy_ends_sequence (fun _ => some ⟨none, none, none, false⟩) 3 0 0).1
    ⟨none, none, none, false⟩ rfl rfl

/-! ## Theorems: rate limiter -/

theorem waitGrant_spacing (rps last t : ℚ) :
    last + minInterval rps ≤ waitGrant rps last t := by
  rw [waitGrant]
  split
  · linarith
  · next h => linarith [not_lt.mp h]

/-- C6 counterexample: coroutine 0 enters `wait()` at instant 0 (sleeping
until 1) and coroutine 1 enters at instant 1/2, before coroutine 0 has
written `_last` back; both read the stale `_last = 0`, so both are granted at
instant 1 — two consecutive grants with spacing 0, strictly less than
`1/rps = 1`.  This refutes the global spacing guarantee for interleaved
callers. -/
theorem rateLimiter_overlap_cex :
    (limRun0 1 [LimAct.call 0 0, LimAct.call 1 (1 / 2), LimAct.wake 0,
        LimAct.wake 1]).map LimiterState.grants = some [1, 1] ∧
    ¬ ((1 : ℚ) + minInterval 1 ≤ 1) := by
  constructor
  · norm_num [limRun0, limRun, limStep, minInterval]
  · norm_num [minInterval]

/-- C6 amended: the spacing guarantee holds for non-overlapping calls — when
each `wait()` is entered only after the previous one returned, consecutive
grant instants are at least `1/rps` apart (with `rps` clamped to the enforced
floor `0.1`), for every initial `_last` and every sequence of entry
instants.  Interleaved overlapping callers can be granted closer together
(see the counterexample), because `wait()` suspends between reading and
writing `_last`. -/
theorem rateLimiter_sequential_spacing (rps last : ℚ) (ts : List ℚ) :
    List.Chain' (fun a b => a + minInterval rps ≤ b) (seqGrants rps last ts) := by
  induction ts generalizing last with
  | nil => exact List.chain'_nil
  | cons t ts ih =>
    rw [seqGrants, List.chain'_cons']
    refine ⟨?_, ih (waitGrant rps last t)⟩
    intro y hy
    cases ts with
    | nil => simp [seqGrants] at hy
    | cons t2 ts2 =>
      rw [seqGrants] at hy
      simp only [List.head?_cons, Option.mem_def, Option.some.injEq] at hy
      subst hy
      exact waitGrant_spacing rps (waitGrant rps last t) t2

/-! ## Theorems: tip-commit resolution -/

theorem getTipCommit_no_values (fmt : Int → String) (logResp : Option LogBody)
    (latestHash : Option String) (hashResp : Option CommitBody)
    (h : logHasValues logResp = false) :
    getTipCommit fmt logResp latestHash hashResp = tipFallback latestHash hashResp := by
  cases logResp with
  | none => rfl
  | some d =>
    by_cases hf : d.falsy
    · simp [getTipCommit, hf]
    · have hf2 : d.falsy = false := by simpa using hf
      have h2 : (d.values.getD []).isEmpty = true := by
        simpa [logHasValues, hf2] using h
      rw [List.isEmpty_iff] at h2
      simp [getTipCommit, hf2, h2]

/-- C7: when the commit-log query yields no values (absent, falsy, no
`values`, or an empty list), tip resolution falls back: with a truthy known
commit hash and a truthy commit-by-hash body it returns that body's
hash/author fields with `date_iso = ""`; when the fallback pair cannot
succeed it returns the all-empty `CommitInfo`.  It is total (never raises),
and every enumerated branch still gets its row written in the repository
trace — a branch is never skipped. -/
theorem getTipCommit_fallback_policy (fmt : Int → String) (logResp : Option LogBody)
    (latestHash : Option String) (hashResp : Option CommitBody)
    (hnv : logHasValues logResp = false) :
    (∀ s c, latestHash = some s → s ≠ "" → hashResp = some c → c.falsy = false →
      getTipCommit fmt logResp latestHash hashResp =
        ⟨c.id.getD "", (effAuthor c.author).name.getD "",
         (effAuthor c.author).emailAddress.getD "", ""⟩) ∧
    (hashTruthy latestHash hashResp = false →
      getTipCommit fmt logResp latestHash hashResp = ⟨"", "", "", ""⟩) ∧
    (∀ pk rname slug branches tip hasCsv hasResume daysFn,
      ∀ br ∈ branches, Event.writeNd (makeRow pk rname slug br (tip br) daysFn) ∈
        processRepoTrace pk rname slug branches tip hasCsv hasResume daysFn) := by
  refine ⟨?_, ?_, ?_⟩
  · intro s c hs hne hc hcf
    subst hs; subst hc
    rw [getTipCommit_no_values fmt logResp _ _ hnv]
    simp [tipFallback, hne, hcf]
  · intro hfail
    rw [getTipCommit_no_values fmt logResp _ _ hnv]
    cases latestHash with
    | none => rfl
    | some s =>
      by_cases hse : s = ""
      · simp [tipFallback, hse]
      · cases hashResp with
        | none => simp [tipFallback, hse]
        | some c =>
          simp only [hashTruthy, Bool.and_eq_false_iff, bne_eq_false_iff_eq,
            Bool.not_eq_false] at hfail
          rcases hfail with hfail | hfail
          · exact absurd hfail hse
          · have hcf : c.falsy = true := by simpa using hfail
            simp [tipFallback, hse, hcf]
  · intro pk rname slug branches tip hasCsv hasResume daysFn br hbr
    have hne : branches.isEmpty = false := by
      cases branches with
      | nil => simp at hbr
      | cons x xs => rfl
    rw [processRepoTrace, hne]
    simp only [Bool.false_eq_true, if_false]
    apply List.mem_append_left
    apply List.mem_append_left
    rw [rowEvents, List.mem_flatMap]
    exact ⟨br, hbr, List.mem_cons_self _ _⟩

theorem getTipCommit_fallback_policy_witness :
    getTipCommit (fun _ => "") none (some "abc123")
        (some ⟨some "abc123", some (some ⟨some "alice", none, some "a@x"⟩), none, false⟩) =
      ⟨"abc123", "alice", "a@x", ""⟩ :=
  (getTipCommit_fallback_policy (fun _ => "") none (some "abc123")
      (some ⟨some "abc123", some (some ⟨some "alice", none, some "a@x"⟩), none, false⟩)
      rfl).1 "abc123"
    ⟨some "abc123", some (some ⟨some "alice", none, some "a@x"⟩), none, false⟩
    rfl (by decide) rfl rfl

/-! ## Theorems: per-repository processing and the resume invariant -/

theorem rowEvents_shape (pk rname slug : String) (branches : List Branch)
    (tip : Branch → CommitInfo) (hasCsv : Bool) (daysFn : String → String) :
    ∀ e ∈ rowEvents pk rname slug branches tip hasCsv daysFn,
      (∃ r, e = Event.writeNd r) ∨ (∃ c, e = Event.writeCsv c) := by
  intro e he
  rw [rowEvents, List.mem_flatMap] at he
  obtain ⟨br, _, hin⟩ := he
  rcases List.mem_cons.mp hin with h | h
  · exact Or.inl ⟨_, h⟩
  · cases hasCsv with
    | true => simp only [if_true, List.mem_singleton] at h; exact Or.inr ⟨_, h⟩
    | false => simp at h

/-- C4: in the trace of `process_repo` (with a resume handle configured) the
resume append and its flush are the final events; they are preceded by an
NDJSON flush, and everything before that flush is exclusively row writes —
so every NDJSON row of the repository (each branch's row, or the empty-repo
stub) has been written, and the handle flushed, strictly before the
ResumeKey `{projectKey}/{repoSlug}` is appended.  Conversely the ResumeKey
is always appended once those writes and the flush have happened, so at
repository-processing boundaries the key is in the resume log exactly when
every row of the repository has been durably flushed. -/
theorem processRepo_resume_after_flush (pk rname slug : String) (branches : List Branch)
    (tip : Branch → CommitInfo) (hasCsv : Bool) (daysFn : String → String) :
    ∃ A B, processRepoTrace pk rname slug branches tip hasCsv true daysFn
        = A ++ Event.flushNd :: (B ++ [Event.writeResume (pk ++ "/" ++ slug),
            Event.flushResume]) ∧
      (∀ e ∈ A, (∃ r, e = Event.writeNd r) ∨ (∃ c, e = Event.writeCsv c)) ∧
      (∀ e ∈ B, ∃ c, e = Event.writeCsv c) ∧
      (branches.isEmpty = true →
        A = [Event.writeNd (makeEmptyRepoRecord pk rname slug)]) ∧
      (∀ br ∈ branches,
        Event.writeNd (makeRow pk rname slug br (tip br) daysFn) ∈ A) := by
  by_cases hb : branches.isEmpty
  · refine ⟨[Event.writeNd (makeEmptyRepoRecord pk rname slug)],
      (if hasCsv then [Event.writeCsv (csvRowOf (makeEmptyRepoRecord pk rname slug))]
       else []), ?_, ?_, ?_, fun _ => rfl, ?_⟩
    · rw [processRepoTrace, hb]
      cases hasCsv <;> simp
    · intro e he
      simp only [List.mem_singleton] at he
      exact Or.inl ⟨_, he⟩
    · intro e he
      cases hasCsv with
      | true => simp only [if_true, List.mem_singleton] at he; exact ⟨_, he⟩
      | false => simp at he
    · intro br hbr
      rw [List.isEmpty_iff] at hb
      subst hb
      simp at hbr
  · have hb2 : branches.isEmpty = false := by simpa using hb
    refine ⟨rowEvents pk rname slug branches tip hasCsv daysFn, [], ?_,
      rowEvents_shape pk rname slug branches tip hasCsv daysFn, ?_, ?_, ?_⟩
    · rw [processRepoTrace, hb2]
      simp
    · intro e he
      simp at he
    · intro h
      rw [h] at hb2
      simp at hb2
    · intro br hbr
      rw [rowEvents, List.mem_flatMap]
      exact ⟨br, hbr, List.mem_cons_self _ _⟩

theorem processRepo_resume_after_flush_witness :
    ∃ A B, processRepoTrace "P" "r" "s" [⟨"main", some "abc", true⟩]
        (fun _ => ⟨"", "", "", ""⟩) true true (fun _ => "")
        = A ++ Event.flushNd :: (B ++ [Event.writeResume ("P" ++ "/" ++ "s"),
            Event.flushResume]) ∧
      (∀ e ∈ A, (∃ r, e = Event.writeNd r) ∨ (∃ c, e = Event.writeCsv c)) ∧
      (∀ e ∈ B, ∃ c, e = Event.writeCsv c) ∧
      (([⟨"main", some "abc", true⟩] : List Branch).isEmpty = true →
        A = [Event.writeNd (makeEmptyRepoRecord "P" "r" "s")]) ∧
      (∀ br ∈ ([⟨"main", some "abc", true⟩] : List Branch),
        Event.writeNd (makeRow "P" "r" "s" br ⟨"", "", "", ""⟩ (fun _ => "")) ∈ A) :=
  processRepo_resume_after_flush "P" "r" "s" [⟨"main", some "abc", true⟩]
    (fun _ => ⟨"", "", "", ""⟩) true (fun _ => "")

/-- C3 counterexample: when the branch-page fetch degrades to the absence
signal on the very first page, the repository enumerates zero branches and
`process_repo` takes the empty-repo path: it DOES write a stub output row and
DOES append the repository's ResumeKey to the resume log — contradicting
"emits no output rows and does not append its ResumeKey".  (The source's own
docstring says the stub covers "no branches (or access denied to
branches)".) -/
theorem failed_enumeration_marks_resumed_cex :
    getBranches (fun _ => (none : Option (PageBody BranchJson))) 8 = [] ∧
    Event.writeNd (makeEmptyRepoRecord "P" "r" "s") ∈
      processRepoTrace "P" "r" "s" (getBranches (fun _ => none) 8)
        (fun _ => ⟨"", "", "", ""⟩) true true (fun _ => "") ∧
    Event.writeResume "P/s" ∈
      processRepoTrace "P" "r" "s" (getBranches (fun _ => none) 8)
        (fun _ => ⟨"", "", "", ""⟩) true true (fun _ => "") := by
  refine ⟨rfl, ?_, ?_⟩ <;> decide

/-- C3 amended: a repository whose branch enumeration fails on its first page
(the page fetch degrades to the absence signal) enumerates zero branches and
is treated exactly like an empty repository: one stub row IS emitted and its
ResumeKey IS appended to the resume log, so the repository is NOT
re-attempted on the next run. -/
theorem failed_enumeration_empty_stub (server : Nat → Option (PageBody BranchJson))
    (fuel : Nat) (pk rname slug : String) (tip : Branch → CommitInfo)
    (hasCsv : Bool) (daysFn : String → String)
    (h : server 0 = none) :
    getBranches server (fuel + 1) = [] ∧
    Event.writeNd (makeEmptyRepoRecord pk rname slug) ∈
      processRepoTrace pk rname slug (getBranches server (fuel + 1)) tip hasCsv true
        daysFn ∧
    Event.writeResume (pk ++ "/" ++ slug) ∈
      processRepoTrace pk rname slug (getBranches server (fuel + 1)) tip hasCsv true
        daysFn := by
  have hb : getBranches server (fuel + 1) = [] := by
    simp [getBranches, pagedGet, pagedGo, h]
  refine ⟨hb, ?_, ?_⟩ <;>
    · rw [hb]
      simp only [processRepoTrace, List.isEmpty_nil, if_true]
      cases hasCsv <;> simp

theorem failed_enumeration_empty_stub_witness :
    getBranches (fun _ => (none : Option (PageBody BranchJson))) 3 = [] ∧
    Event.writeNd (makeEmptyRepoRecord "PX" "rx" "sx") ∈
      processRepoTrace "PX" "rx" "sx"
        (getBranches (fun _ => (none : Option (PageBody BranchJson))) 3)
        (fun _ => ⟨"", "", "", ""⟩) false true (fun _ => "") ∧
    Event.writeResume ("PX" ++ "/" ++ "sx") ∈
      processRepoTrace "PX" "rx" "sx"
        (getBranches (fun _ => (none : Option (PageBody BranchJson))) 3)
        (fun _ => ⟨"", "", "", ""⟩) false true (fun _ => "") :=
  failed_enumeration_empty_stub (fun _ => none) 2 "PX" "rx" "sx"
    (fun _ => ⟨"", "", "", ""⟩) false (fun _ => "") rfl

/-! ## Theorems: output rows -/

/-- C8 counterexample: the tabular mirror's fixed header contains no
`has_branches` column, so the CSV projection of an empty-repo stub row
carries no `has_branches` marker at all (its trailing `"no"` is the
`is_default_branch` column) — the marker survives only in the NDJSON
record.  This refutes "every empty-repo stub row written to the CSV mirror
carries a has_branches marker". -/
theorem csv_stub_lacks_marker_cex :
    CSV_HEADER.contains "has_branches" = false ∧
    csvRowOf (makeEmptyRepoRecord "P" "r" "s") =
      ["P", "r", "s", "", "", "", "", "", "", "no"] := by
  exact ⟨rfl, rfl⟩

/-- C8 amended: the `has_branches` marker (value `"no"`) is carried by every
empty-repo stub record and by no ordinary branch row in the NDJSON sink; the
CSV mirror's fixed column set contains no `has_branches` column, so no CSV
row — stub or ordinary — carries the marker in the tabular sink. -/
theorem has_branches_marker_ndjson_only (pk rname slug : String) (br : Branch)
    (tip : CommitInfo) (daysFn : String → String) :
    (makeEmptyRepoRecord pk rname slug).contains ("has_branches", "no") = true ∧
    ((makeRow pk rname slug br tip daysFn).map Prod.fst).contains "has_branches"
      = false ∧
    CSV_HEADER.contains "has_branches" = false :=
  ⟨rfl, rfl, rfl⟩

/-- C9: the empty-repo stub record carries every commit-derived field
(`last_commit_hash`, `last_commit_author`, `last_commit_email`,
`last_commit_date_utc`, `days_since_last_commit`) equal to the empty string,
`is_default_branch = "no"`, `branch = ""` and `has_branches = "no"`. -/
theorem makeEmptyRepoRecord_fields (pk rname slug : String) :
    recGet (makeEmptyRepoRecord pk rname slug) "branch" "?" = "" ∧
    recGet (makeEmptyRepoRecord pk rname slug) "last_commit_hash" "?" = "" ∧
    recGet (makeEmptyRepoRecord pk rname slug) "last_commit_author" "?" = "" ∧
    recGet (makeEmptyRepoRecord pk rname slug) "last_commit_email" "?" = "" ∧
    recGet (makeEmptyRepoRecord pk rname slug) "last_commit_date_utc" "?" = "" ∧
    recGet (makeEmptyRepoRecord pk rname slug) "days_since_last_commit" "?" = "" ∧
    recGet (makeEmptyRepoRecord pk rname slug) "is_default_branch" "?" = "no" ∧
    recGet (makeEmptyRepoRecord pk rname slug) "has_branches" "?" = "no" :=
  ⟨rfl, rfl, rfl, rfl, rfl, rfl, rfl, rfl⟩

end Harvest
